import Mathlib

/-!
Verification of the adaptive-step ODE integration engine
(`torchdiffeq/_impl/solvers.py` and `torchdiffeq/_impl/odeint.py`).

Times are modelled as rationals; states, solver-internal states, event
functions and interpolation-coefficient payloads are abstract type
parameters, so every theorem quantifies over all concrete stepping schemes.
-/

deriving instance DecidableEq for Except

namespace ODEs

/-- Scalar time values (a floating-point scalar in the source). -/
abbrev Time := ℚ

/-- Shallow embedding of the `AdaptiveStepsizeODESolver` /
`AdaptiveStepsizeEventODESolver` object (solvers.py).  `y0` is set in
`__init__` and never reassigned; the mutable solver internals (`rk_state`
in concrete subclasses) are an abstract state `S` threaded explicitly.
`before_integrate` models `_before_integrate`, `advance` models the
abstract `_advance`, and `advance_until_event` models the abstract
`_advance_until_event` (returning the event time and the state there). -/
structure Solver (Y S E : Type) where
  y0 : Y
  init : S
  before_integrate : List Time → S → S
  advance : S → Time → Y × S
  advance_until_event : S → E → Time × Y

/-- The loop `for i in range(1, len(t)): solution[i] = self._advance(t[i])`
of `AdaptiveStepsizeODESolver.integrate`, threading the mutable solver
state. -/
def advance_list {Y S E : Type} (sol : Solver Y S E) : S → List Time → List Y
  | _, [] => []
  | s, ti :: rest =>
    let r := sol.advance s ti
    r.1 :: advance_list sol r.2 rest

/-- `AdaptiveStepsizeODESolver.integrate` (solvers.py lines 41-57):
allocates `solution`, writes `solution[0] = self.y0`, calls
`_before_integrate(t)`, then fills rows `1..len(t)-1` with `_advance(t[i])`.
On an empty time tensor, `solution[0] = self.y0` raises an index error,
modelled as `none`. -/
def integrate {Y S E : Type} (sol : Solver Y S E) (t : List Time) : Option (List Y) :=
  match t with
  | [] => none
  | t0 :: rest =>
    let s := sol.before_integrate (t0 :: rest) sol.init
    some (sol.y0 :: advance_list sol s rest)

/-- `AdaptiveStepsizeEventODESolver.integrate_until_event` (solvers.py
lines 69-85): converts `t0`, calls `_before_integrate(t0.reshape(-1))`,
runs `_advance_until_event(event_fn)` and stacks `[self.y0, y1]`. -/
def integrate_until_event {Y S E : Type} (sol : Solver Y S E) (t0 : Time) (e : E) :
    Time × List Y :=
  let s := sol.before_integrate [t0] sol.init
  let r := sol.advance_until_event s e
  (r.1, [sol.y0, r.2])

lemma advance_list_length {Y S E : Type} (sol : Solver Y S E) :
    ∀ (s : S) (ts : List Time), (advance_list sol s ts).length = ts.length := by
  intro s ts
  induction ts generalizing s with
  | nil => rfl
  | cons ti rest ih => simp [advance_list, ih]

/-- C1: `integrate_until_event` returns a pair whose trajectory has exactly
two rows, the first being the unmodified initial state `y0` and the second
the state reported by `_advance_until_event` at the located event time
(whose first component is the returned event time). -/
theorem integrate_until_event_two_rows {Y S E : Type} (sol : Solver Y S E)
    (t0 : Time) (e : E) :
    (integrate_until_event sol t0 e).2.length = 2 ∧
    (integrate_until_event sol t0 e).2.head? = some sol.y0 ∧
    (integrate_until_event sol t0 e).2.get? 1 =
      some (sol.advance_until_event (sol.before_integrate [t0] sol.init) e).2 ∧
    (integrate_until_event sol t0 e).1 =
      (sol.advance_until_event (sol.before_integrate [t0] sol.init) e).1 := by
  refine ⟨rfl, rfl, ?_, rfl⟩
  simp [integrate_until_event]

/-- C2: on a non-empty time sequence, `integrate` succeeds and returns one
output row per requested time, the first row being the unmodified initial
state `y0` (it is written before any `_advance` call, so this holds for
every stepping scheme). -/
theorem integrate_rows {Y S E : Type} (sol : Solver Y S E) (t : List Time)
    (h : t ≠ []) :
    ∃ ys, integrate sol t = some ys ∧ ys.length = t.length ∧
      ys.head? = some sol.y0 := by
  match t with
  | [] => exact absurd rfl h
  | t0 :: rest =>
    refine ⟨_, rfl, ?_, rfl⟩
    simp [advance_list_length]

/-- A concrete solver instance used to evaluate the theorems on explicit
inputs. -/
def solC : Solver ℚ Unit Unit where
  y0 := 1
  init := ()
  before_integrate := fun _ s => s
  advance := fun s t => (t + 1, s)
  advance_until_event := fun _ _ => (5, 9)

/-- Witness for C2 at the concrete input `t = [0, 1, 2]`. -/
theorem integrate_rows_witness :
    ∃ ys, integrate solC [0, 1, 2] = some ys ∧ ys.length = ([0, 1, 2] : List Time).length ∧
      ys.head? = some solC.y0 :=
  integrate_rows solC [0, 1, 2] (by decide)

/-- Modelled from the spec: the direction-normalization step of
`_check_inputs` (`torchdiffeq/_impl/misc.py`, absent from the sources):
"the integration direction is determined by the sign of `t_end - t_start`;
internally the engine normalizes to increasing time and negates on output
if the original request was decreasing." -/
def t_is_reversed (t : List Time) : Bool :=
  decide (t.getLast?.getD 0 < t.head?.getD 0)

/-- Modelled from the spec: the normalized (increasing) time sequence
produced by `_check_inputs` — the times are negated when the request was
decreasing.  The matching conjugation of `func` is absorbed into the
abstract solver object, which in `odeint` is built after normalization. -/
def normalized_times (t : List Time) : List Time :=
  if t_is_reversed t then t.map (fun x => -x) else t

/-- The event branch of `odeint` (odeint.py lines 81-93, single-tensor
`y0`, so `shapes is None`): run `integrate_until_event(t[0], event_fn)` on
the normalized times, then negate the event time iff the original request
was decreasing. -/
def odeint_event_path {Y S E : Type} (sol : Solver Y S E) (t : List Time) (e : E) :
    Time × List Y :=
  let r := integrate_until_event sol ((normalized_times t).head?.getD 0) e
  ((if t_is_reversed t then -r.1 else r.1), r.2)

/-- The event time in the solver's internal (normalized, increasing-time)
frame: the first component of the `integrate_until_event` result. -/
def internal_event_time {Y S E : Type} (sol : Solver Y S E) (t : List Time) (e : E) :
    Time :=
  (integrate_until_event sol ((normalized_times t).head?.getD 0) e).1

/-- C7: `odeint` with an event function negates the internally computed
event time exactly when the original time sequence was decreasing, and
returns it unnegated otherwise. -/
theorem odeint_event_time_sign {Y S E : Type} (sol : Solver Y S E)
    (t : List Time) (e : E) :
    (t_is_reversed t = true →
      (odeint_event_path sol t e).1 = -internal_event_time sol t e) ∧
    (t_is_reversed t = false →
      (odeint_event_path sol t e).1 = internal_event_time sol t e) := by
  constructor <;> intro h <;>
    simp [odeint_event_path, internal_event_time, h]

/-- Witness for C7: the reversed case at `t = [1, 0]` and the forward case
at `t = [0, 1]`. -/
theorem odeint_event_time_sign_witness :
    (odeint_event_path solC [1, 0] ()).1 = -internal_event_time solC [1, 0] () ∧
    (odeint_event_path solC [0, 1] ()).1 = internal_event_time solC [0, 1] () :=
  ⟨(odeint_event_time_sign solC [1, 0] ()).1 (by decide),
   (odeint_event_time_sign solC [0, 1] ()).2 (by decide)⟩

lemma normalized_head_of_eq {t t' : List Time}
    (hh : t.head?.getD 0 = t'.head?.getD 0)
    (hr : t_is_reversed t = t_is_reversed t') :
    (normalized_times t).head?.getD 0 = (normalized_times t').head?.getD 0 := by
  unfold normalized_times
  rw [hr]
  cases ht : t_is_reversed t' with
  | false => simpa using hh
  | true =>
    simp only [if_pos rfl]
    cases t with
    | nil => exact absurd (hr.trans ht) (by decide)
    | cons a l =>
      cases t' with
      | nil => exact absurd ht (by decide)
      | cons b m => simp_all

/-- C8: with an event function, the result of `odeint` depends on the time
sequence only through its first element and the solve direction: two time
sequences with the same first element and the same direction give the same
`(event_time, solution)` pair. -/
theorem odeint_event_ignores_tail {Y S E : Type} (sol : Solver Y S E)
    (t t' : List Time) (e : E)
    (hh : t.head?.getD 0 = t'.head?.getD 0)
    (hr : t_is_reversed t = t_is_reversed t') :
    odeint_event_path sol t e = odeint_event_path sol t' e := by
  unfold odeint_event_path
  rw [normalized_head_of_eq hh hr, hr]

/-- Witness for C8 at `t = [0, 1, 7]` and `t' = [0, 3]`, which share the
first element `0` and the increasing direction. -/
theorem odeint_event_ignores_tail_witness :
    odeint_event_path solC [0, 1, 7] () = odeint_event_path solC [0, 3] () :=
  odeint_event_ignores_tail solC [0, 1, 7] [0, 3] () (by decide) (by decide)

/-- Errors surfaced by the dense-output machinery of `odeint.py`:
Python `assert` failures, the `ValueError` for an unknown method name,
tensor index-out-of-bounds errors, and the interpolation-range error of
`_interp_evaluate`. -/
inductive DErr : Type
  | assertionError : DErr
  | invalidMethod : DErr
  | indexError : DErr
  | outOfInterpolationRange : DErr
deriving DecidableEq

/-- The keys of the `SOLVERS` registry (odeint.py lines 15-31). -/
def SOLVERS_keys : List String :=
  ["dopri8", "dopri5", "bosh3", "fehlberg2", "adaptive_heun", "euler",
   "midpoint", "heun3", "rk4", "explicit_adams", "implicit_adams",
   "fixed_adams", "scipy_solver"]

/-- Modelled from the spec: method resolution inside `_check_inputs`
(`misc.py`, absent from the sources) — a missing method defaults to the
standard adaptive scheme `"dopri5"`, and a name outside the registry is a
configuration error ("ValueError: if an invalid `method` is provided"). -/
def resolve_method (m : Option String) : Except DErr String :=
  let r := match m with
    | none => "dopri5"
    | some s => s
  if SOLVERS_keys.contains r then Except.ok r else Except.error DErr.invalidMethod

/-- A caller-supplied initial state: `odeint` accepts a single tensor or a
tuple of tensors; `torch.is_tensor` distinguishes the two. -/
inductive TensorTuple (Y : Type) : Type
  | tensor : Y → TensorTuple Y
  | tuple : List Y → TensorTuple Y

/-- `torch.is_tensor(y0)`. -/
def is_tensor {Y : Type} : TensorTuple Y → Bool
  | TensorTuple.tensor _ => true
  | TensorTuple.tuple _ => false

/-- The guard sequence at the top of `odeint_dense` (odeint.py lines
112-120): `assert torch.is_tensor(y0)`, then `_check_inputs` (which
resolves the method name), then `assert method == "dopri5"`; only after
all of these does the integration (abstracted as `run`) happen. -/
def odeint_dense_front {Y R : Type} (y0 : TensorTuple Y) (m : Option String)
    (run : Y → String → R) : Except DErr R :=
  match y0 with
  | TensorTuple.tuple _ => Except.error DErr.assertionError
  | TensorTuple.tensor y =>
    match resolve_method m with
    | Except.error e => Except.error e
    | Except.ok meth =>
      if meth = "dopri5" then Except.ok (run y meth)
      else Except.error DErr.assertionError

/-- C9: for every registered method name other than `"dopri5"`,
`odeint_dense` fails with an assertion error before integrating — the
result is the error for every possible integration routine `run`. -/
theorem odeint_dense_rejects_non_dopri5 {Y R : Type} (y : Y) (m : String)
    (run : Y → String → R)
    (hm : SOLVERS_keys.contains m = true) (hne : m ≠ "dopri5") :
    odeint_dense_front (TensorTuple.tensor y) (some m) run =
      Except.error DErr.assertionError := by
  have hmem : m ∈ SOLVERS_keys := by simpa using hm
  simp [odeint_dense_front, resolve_method, hmem, hne]

/-- Witness for C9 at the concrete method `"euler"`. -/
theorem odeint_dense_rejects_non_dopri5_witness :
    odeint_dense_front (TensorTuple.tensor (1 : ℚ)) (some "euler")
      (fun y _ => y) = Except.error DErr.assertionError :=
  odeint_dense_rejects_non_dopri5 (1 : ℚ) "euler" (fun y _ => y)
    (by decide) (by decide)

/-- C10: for every initial state that is not a single tensor,
`odeint_dense` fails with an assertion error before any integration is
performed, for every method argument and every integration routine. -/
theorem odeint_dense_requires_tensor {Y R : Type} (y0 : TensorTuple Y)
    (m : Option String) (run : Y → String → R)
    (h : is_tensor y0 = false) :
    odeint_dense_front y0 m run = Except.error DErr.assertionError := by
  cases y0 with
  | tensor y => exact absurd h (by simp [is_tensor])
  | tuple ys => rfl

/-- Witness for C10 at a concrete tuple-of-tensors initial state. -/
theorem odeint_dense_requires_tensor_witness :
    odeint_dense_front (TensorTuple.tuple [(1 : ℚ), 2]) (some "dopri5")
      (fun y _ => y) = Except.error DErr.assertionError :=
  odeint_dense_requires_tensor (TensorTuple.tuple [(1 : ℚ), 2])
    (some "dopri5") (fun y _ => y) (by decide)

/-- Modelled from the spec: the RK/Solver state carried in
`solver.rk_state` (`rk_common.py`, absent from the sources), restricted to
the fields the dense integration loop reads — per spec §3 it is
`{t0, t1, current_step_size, interp_coefficients}` with the interpolation
coefficients valid on `[t0, t1]`.  The coefficient payload is an abstract
type `C`. -/
structure RKState (C : Type) where
  t0 : Time
  t1 : Time
  dt : Time
  interp_coeff : C
deriving DecidableEq

/-- Modelled from the spec: `_interp_evaluate` (`interp.py`, absent from
the sources) — per spec §4.3 it "requires `t0 <= t_query <= t1` ...;
errors with `OutOfInterpolationRange` otherwise", and otherwise evaluates
the scheme-specific local polynomial basis, abstracted here as
`evalPoly`. -/
def interp_evaluate {Y C : Type} (evalPoly : C → Time → Time → Time → Y)
    (c : C) (t0 t1 t : Time) : Except DErr Y :=
  if t0 ≤ t ∧ t ≤ t1 then Except.ok (evalPoly c t0 t1 t)
  else Except.error DErr.outOfInterpolationRange

/-- The mutable locals of the integration loop of `odeint_dense`
(odeint.py lines 127-147): the solver's `rk_state`, the local variable
`t0` tracking the last accepted right endpoint, and the append-only
archive lists `times` and `interp_coeffs`. -/
structure DenseLoopState (C : Type) where
  rk : RKState C
  tLast : Time
  times : List Time
  coeffs : List C
deriving DecidableEq

/-- One iteration of the `while` body (odeint.py lines 135-142):
`rk_state = solver._adaptive_step(rk_state)`, then if the right endpoint
moved (`t1 != t0`) the step was accepted, so the tracking variable
advances and the new endpoint and coefficients are appended to the
archive. -/
def dense_step_iter {C : Type} (step : RKState C → RKState C)
    (s : DenseLoopState C) : DenseLoopState C :=
  let rk := step s.rk
  if rk.t1 ≠ s.tLast then
    ⟨rk, rk.t1, s.times ++ [rk.t1], s.coeffs ++ [rk.interp_coeff]⟩
  else
    ⟨rk, s.tLast, s.times, s.coeffs⟩

/-- The `while next_t > solver.rk_state.t1` loop (odeint.py line 134),
with explicit fuel; `none` models the loop not terminating within the
fuel. -/
def dense_while {C : Type} (step : RKState C → RKState C) :
    Nat → Time → DenseLoopState C → Option (DenseLoopState C)
  | 0, next_t, s => if s.rk.t1 < next_t then none else some s
  | Nat.succ fuel, next_t, s =>
    if s.rk.t1 < next_t then dense_while step fuel next_t (dense_step_iter step s)
    else some s

/-- Processing of one requested output time (odeint.py lines 133-144):
run the while loop, then compute
`solution[i] = _interp_evaluate(rk_state.interp_coeff, rk_state.t0,
rk_state.t1, next_t)` from the current solver state. -/
def dense_advance_time {Y C : Type} (step : RKState C → RKState C)
    (evalPoly : C → Time → Time → Time → Y) (fuel : Nat) (next_t : Time)
    (s : DenseLoopState C) : Option (Except DErr Y × DenseLoopState C) :=
  match dense_while step fuel next_t s with
  | none => none
  | some s1 =>
    some (interp_evaluate evalPoly s1.rk.interp_coeff s1.rk.t0 s1.rk.t1 next_t, s1)

/-- The outer `for i in range(1, len(t))` loop of `odeint_dense`,
collecting the output rows and the final loop state. -/
def dense_integrate {Y C : Type} (step : RKState C → RKState C)
    (evalPoly : C → Time → Time → Time → Y) (fuel : Nat) :
    List Time → DenseLoopState C → Option (List (Except DErr Y) × DenseLoopState C)
  | [], s => some ([], s)
  | next_t :: ts, s =>
    match dense_advance_time step evalPoly fuel next_t s with
    | none => none
    | some (y, s1) =>
      match dense_integrate step evalPoly fuel ts s1 with
      | none => none
      | some (ys, s2) => some (y :: ys, s2)

/-- The loop state right after `_before_integrate` (odeint.py lines
126-130): the solver sits at `t0 = t1 = tstart`, the local `t0` equals
`tstart`, `times = [t0]` and no coefficients are archived yet. -/
def dense_init {C : Type} (tstart dt0 : Time) (c0 : C) : DenseLoopState C :=
  ⟨⟨tstart, tstart, dt0, c0⟩, tstart, [tstart], []⟩

lemma dense_while_exit {C : Type} (step : RKState C → RKState C) :
    ∀ (fuel : Nat) (next_t : Time) (s s1 : DenseLoopState C),
      dense_while step fuel next_t s = some s1 → next_t ≤ s1.rk.t1 := by
  intro fuel
  induction fuel with
  | zero =>
    intro next_t s s1 h
    by_cases hc : s.rk.t1 < next_t
    · simp [dense_while, hc] at h
    · simp [dense_while, hc] at h
      exact h ▸ le_of_not_lt hc
  | succ fuel ih =>
    intro next_t s s1 h
    by_cases hc : s.rk.t1 < next_t
    · exact ih next_t (dense_step_iter step s) s1 (by simpa [dense_while, hc] using h)
    · simp [dense_while, hc] at h
      exact h ▸ le_of_not_lt hc

/-- C4: the per-output-time mechanism of the `odeint_dense` loop.  While
the current right endpoint `t1` is below the requested time, the loop body
keeps running (`_adaptive_step` followed by the acceptance bookkeeping of
`dense_step_iter`); as soon as `t1 >= next_t` the loop stops and the
output row is the dense interpolant of the *current* solver state
evaluated at `next_t` — in particular every produced row satisfies
`next_t <= t1` and equals `_interp_evaluate` of the final state's
coefficients and endpoints. -/
theorem dense_loop_advances_then_interpolates {Y C : Type}
    (step : RKState C → RKState C) (evalPoly : C → Time → Time → Time → Y)
    (fuel : Nat) (next_t : Time) (s : DenseLoopState C) :
    (s.rk.t1 < next_t →
      dense_advance_time step evalPoly (fuel + 1) next_t s =
        dense_advance_time step evalPoly fuel next_t (dense_step_iter step s)) ∧
    (¬ s.rk.t1 < next_t →
      dense_advance_time step evalPoly fuel next_t s =
        some (interp_evaluate evalPoly s.rk.interp_coeff s.rk.t0 s.rk.t1 next_t, s)) ∧
    (∀ (y : Except DErr Y) (s1 : DenseLoopState C),
      dense_advance_time step evalPoly fuel next_t s = some (y, s1) →
        next_t ≤ s1.rk.t1 ∧
        y = interp_evaluate evalPoly s1.rk.interp_coeff s1.rk.t0 s1.rk.t1 next_t) := by
  refine ⟨?_, ?_, ?_⟩
  · intro hc
    simp [dense_advance_time, dense_while, hc]
  · intro hc
    cases fuel <;> simp [dense_advance_time, dense_while, hc]
  · intro y s1 h
    unfold dense_advance_time at h
    cases hw : dense_while step fuel next_t s with
    | none => rw [hw] at h; exact absurd h (by simp)
    | some s2 =>
      rw [hw] at h
      simp only [Option.some.injEq, Prod.mk.injEq] at h
      refine ⟨h.2 ▸ dense_while_exit step fuel next_t s s2 hw, ?_⟩
      rw [← h.1, h.2]

/-- Witness for C4, applying the theorem at a concrete scheme that jumps
the right endpoint to `5` in one accepted step. -/
theorem dense_loop_advances_then_interpolates_witness :
    ((2 : Time) ≤ (⟨⟨0, 5, 1, 0⟩, 5, [0, 5], [0]⟩ : DenseLoopState ℚ).rk.t1 ∧
      (Except.ok 0 : Except DErr ℚ) =
        interp_evaluate (fun _ _ _ _ => (0 : ℚ))
          (⟨⟨0, 5, 1, 0⟩, 5, [0, 5], [0]⟩ : DenseLoopState ℚ).rk.interp_coeff
          (⟨⟨0, 5, 1, 0⟩, 5, [0, 5], [0]⟩ : DenseLoopState ℚ).rk.t0
          (⟨⟨0, 5, 1, 0⟩, 5, [0, 5], [0]⟩ : DenseLoopState ℚ).rk.t1 2) :=
  (dense_loop_advances_then_interpolates
      (fun r => ⟨r.t1, 5, r.dt, r.interp_coeff⟩)
      (fun _ _ _ _ => (0 : ℚ)) 5 2 (dense_init 0 1 0)).2.2
    (Except.ok 0) ⟨⟨0, 5, 1, 0⟩, 5, [0, 5], [0]⟩ (by decide)

/-- The loop-state invariant maintained by the `odeint_dense` integration
loop: the solver's right endpoint equals the tracked last accepted time,
the archived breakpoint times are strictly increasing, and every archived
time is at most the last accepted one. -/
def DenseInv {C : Type} (s : DenseLoopState C) : Prop :=
  s.rk.t1 = s.tLast ∧ s.times.Pairwise (· < ·) ∧ ∀ x ∈ s.times, x ≤ s.tLast

lemma dense_step_iter_inv {C : Type} {step : RKState C → RKState C}
    (hstep : ∀ r, (step r).t1 = r.t1 ∨ r.t1 < (step r).t1)
    (s : DenseLoopState C) (hinv : DenseInv s) :
    DenseInv (dense_step_iter step s) ∧
      ∃ l, (dense_step_iter step s).times = s.times ++ l := by
  obtain ⟨h1, h2, h3⟩ := hinv
  unfold dense_step_iter
  by_cases hne : (step s.rk).t1 = s.tLast
  · rw [if_neg (fun hc => hc hne)]
    exact ⟨⟨hne, h2, h3⟩, [], by simp⟩
  · have hlt : s.tLast < (step s.rk).t1 := by
      rcases hstep s.rk with h | h
      · exact absurd (h.trans h1) hne
      · exact h1 ▸ h
    rw [if_pos hne]
    refine ⟨⟨rfl, ?_, ?_⟩, [(step s.rk).t1], rfl⟩
    · rw [List.pairwise_append]
      refine ⟨h2, by simp, ?_⟩
      intro a ha b hb
      rw [List.mem_singleton] at hb
      exact hb ▸ lt_of_le_of_lt (h3 a ha) hlt
    · intro x hx
      rcases List.mem_append.mp hx with hx | hx
      · exact le_of_lt (lt_of_le_of_lt (h3 x hx) hlt)
      · rw [List.mem_singleton] at hx
        exact le_of_eq hx

lemma dense_while_inv {C : Type} {step : RKState C → RKState C}
    (hstep : ∀ r, (step r).t1 = r.t1 ∨ r.t1 < (step r).t1) :
    ∀ (fuel : Nat) (next_t : Time) (s s1 : DenseLoopState C), DenseInv s →
      dense_while step fuel next_t s = some s1 →
      DenseInv s1 ∧ ∃ l, s1.times = s.times ++ l := by
  intro fuel
  induction fuel with
  | zero =>
    intro next_t s s1 hinv h
    by_cases hc : s.rk.t1 < next_t
    · simp [dense_while, hc] at h
    · simp [dense_while, hc] at h
      exact h ▸ ⟨hinv, [], by simp⟩
  | succ fuel ih =>
    intro next_t s s1 hinv h
    by_cases hc : s.rk.t1 < next_t
    · obtain ⟨hi, l1, hl1⟩ := dense_step_iter_inv hstep s hinv
      obtain ⟨hinv1, l2, hl2⟩ :=
        ih next_t (dense_step_iter step s) s1 hi (by simpa [dense_while, hc] using h)
      exact ⟨hinv1, l1 ++ l2, by rw [hl2, hl1, List.append_assoc]⟩
    · simp [dense_while, hc] at h
      exact h ▸ ⟨hinv, [], by simp⟩

lemma dense_advance_time_inv {Y C : Type} {step : RKState C → RKState C}
    {evalPoly : C → Time → Time → Time → Y}
    (hstep : ∀ r, (step r).t1 = r.t1 ∨ r.t1 < (step r).t1)
    (fuel : Nat) (next_t : Time) (s : DenseLoopState C)
    (y : Except DErr Y) (s1 : DenseLoopState C) (hinv : DenseInv s)
    (h : dense_advance_time step evalPoly fuel next_t s = some (y, s1)) :
    DenseInv s1 ∧ ∃ l, s1.times = s.times ++ l := by
  unfold dense_advance_time at h
  cases hw : dense_while step fuel next_t s with
  | none => rw [hw] at h; exact absurd h (by simp)
  | some s2 =>
    rw [hw] at h
    simp only [Option.some.injEq, Prod.mk.injEq] at h
    exact h.2 ▸ dense_while_inv hstep fuel next_t s s2 hinv hw

lemma dense_integrate_inv {Y C : Type} {step : RKState C → RKState C}
    {evalPoly : C → Time → Time → Time → Y}
    (hstep : ∀ r, (step r).t1 = r.t1 ∨ r.t1 < (step r).t1) (fuel : Nat) :
    ∀ (ts : List Time) (s : DenseLoopState C)
      (out : List (Except DErr Y) × DenseLoopState C), DenseInv s →
      dense_integrate step evalPoly fuel ts s = some out →
      DenseInv out.2 ∧ ∃ l, out.2.times = s.times ++ l := by
  intro ts
  induction ts with
  | nil =>
    intro s out hinv h
    simp only [dense_integrate, Option.some.injEq] at h
    exact h ▸ ⟨hinv, [], by simp⟩
  | cons t ts ih =>
    intro s out hinv h
    unfold dense_integrate at h
    cases hadv : dense_advance_time step evalPoly fuel t s with
    | none => rw [hadv] at h; exact absurd h (by simp)
    | some p =>
      obtain ⟨y, s1⟩ := p
      rw [hadv] at h
      dsimp only at h
      obtain ⟨hinv1, l1, hl1⟩ :=
        dense_advance_time_inv hstep fuel t s y s1 hinv hadv
      cases hrest : dense_integrate step evalPoly fuel ts s1 with
      | none => rw [hrest] at h; exact absurd h (by simp)
      | some q =>
        rw [hrest] at h
        obtain ⟨hinv2, l2, hl2⟩ := ih s1 q hinv1 hrest
        simp only [Option.some.injEq] at h
        refine h ▸ ⟨hinv2, l1 ++ l2, ?_⟩
        rw [hl2, hl1, List.append_assoc]

/-- C6: the archive of `odeint_dense` is append-only and its breakpoint
times stay strictly increasing, provided `_adaptive_step` never moves the
right endpoint backwards (a rejected trial leaves `t1` unchanged, an
accepted one moves it forward — spec §3/§4.1).  A rejected trial step
(`t1` unchanged) appends nothing, an accepted one appends exactly its new
right endpoint, and any run of the integration loop from a state
satisfying the loop invariant only extends the breakpoint list, keeping it
strictly increasing. -/
theorem dense_archive_monotone {Y C : Type}
    (step : RKState C → RKState C) (evalPoly : C → Time → Time → Time → Y)
    (fuel : Nat)
    (hstep : ∀ r, (step r).t1 = r.t1 ∨ r.t1 < (step r).t1) :
    (∀ s : DenseLoopState C, (step s.rk).t1 = s.tLast →
      (dense_step_iter step s).times = s.times) ∧
    (∀ s : DenseLoopState C, (step s.rk).t1 ≠ s.tLast →
      (dense_step_iter step s).times = s.times ++ [(step s.rk).t1]) ∧
    (∀ (ts : List Time) (s : DenseLoopState C)
      (out : List (Except DErr Y) × DenseLoopState C), DenseInv s →
      dense_integrate step evalPoly fuel ts s = some out →
      (∃ l, out.2.times = s.times ++ l) ∧ out.2.times.Pairwise (· < ·)) := by
  refine ⟨?_, ?_, ?_⟩
  · intro s h
    unfold dense_step_iter
    rw [if_neg (fun hc => hc h)]
  · intro s h
    unfold dense_step_iter
    rw [if_pos h]
  · intro ts s out hinv h
    obtain ⟨hinv2, hex⟩ := dense_integrate_inv hstep fuel ts s out hinv h
    exact ⟨hex, hinv2.2.1⟩

/-- A concrete adaptive step used to evaluate the archive theorem: it
jumps the right endpoint to `5` once and then rejects forever. -/
def stepC : RKState ℚ → RKState ℚ :=
  fun r => if r.t1 < 5 then ⟨r.t1, 5, r.dt, r.interp_coeff⟩ else r

lemma stepC_forward : ∀ r, (stepC r).t1 = r.t1 ∨ r.t1 < (stepC r).t1 := by
  intro r
  unfold stepC
  by_cases h : r.t1 < 5
  · exact Or.inr (by simp [h])
  · exact Or.inl (by simp [h])

/-- Witness for C6: a concrete run of the integration loop from the
initial state, whose archive `[0, 5]` extends `[0]` and is strictly
increasing. -/
theorem dense_archive_monotone_witness :
    (∃ l, (⟨⟨0, 5, 1, 0⟩, 5, [0, 5], [0]⟩ : DenseLoopState ℚ).times =
      (dense_init (0 : Time) 1 (0 : ℚ)).times ++ l) ∧
    (⟨⟨0, 5, 1, 0⟩, 5, [0, 5], [0]⟩ : DenseLoopState ℚ).times.Pairwise (· < ·) :=
  (dense_archive_monotone stepC (fun _ _ _ _ => (0 : ℚ)) 5 stepC_forward).2.2
    [2] (dense_init 0 1 0) ([Except.ok 0], ⟨⟨0, 5, 1, 0⟩, 5, [0, 5], [0]⟩)
    ⟨rfl, by simp [dense_init], by simp [dense_init]⟩ (by decide)

/-- Python/torch tensor indexing with a possibly negative index: a
negative index wraps around from the end (as `times[idx - 1]` does in
`dense_output_fn` when `idx == 0`), and an index past either end raises an
`IndexError`, modelled as `none`. -/
def tindex {A : Type} (l : List A) (i : Int) : Option A :=
  if 0 ≤ i then l.get? i.toNat
  else if (-i).toNat ≤ l.length then l.get? (l.length - (-i).toNat) else none

/-- `dense_output_fn` (odeint.py lines 149-163): an ordered
(`torch.searchsorted`, side `"right"`) lookup of the query time in the
archived breakpoint times — modelled by `findIdx` of the first breakpoint
strictly greater than the query, which is the value binary search returns
on a sorted tensor — then the sequential lookups `t0 = times[idx - 1]`,
`t1 = times[idx]`, `coef = interp_coeffs[idx - 1]`, and delegation to the
same `_interp_evaluate` used by the forward pass. -/
def searchsorted_right (times : List Time) (t_eval : Time) : Nat :=
  times.findIdx (fun x => decide (t_eval < x))

def dense_output_fn {Y C : Type} (evalPoly : C → Time → Time → Time → Y)
    (times : List Time) (coeffs : List C) (t_eval : Time) : Except DErr Y :=
  let idx : Nat := searchsorted_right times t_eval
  match tindex times ((idx : Int) - 1) with
  | none => Except.error DErr.indexError
  | some t0 =>
    match tindex times (idx : Int) with
    | none => Except.error DErr.indexError
    | some t1 =>
      match tindex coeffs ((idx : Int) - 1) with
      | none => Except.error DErr.indexError
      | some c => interp_evaluate evalPoly c t0 t1 t_eval

lemma tindex_ofNat {A : Type} (l : List A) (n : Nat) (h : n < l.length) :
    tindex l (n : Int) = some (l.get ⟨n, h⟩) := by
  unfold tindex
  rw [if_pos (Int.natCast_nonneg n)]
  simp [List.get?_eq_get h]

lemma tindex_ofNat_none {A : Type} (l : List A) (n : Nat) (h : l.length ≤ n) :
    tindex l (n : Int) = none := by
  unfold tindex
  rw [if_pos (Int.natCast_nonneg n)]
  simp [List.get?_len_le, h]

lemma tindex_neg_one {A : Type} (l : List A) (h : l ≠ []) :
    tindex l (-1) = l.getLast? := by
  unfold tindex
  rw [if_neg (by decide), if_pos (by simpa using List.length_pos.mpr h),
    List.getLast?_eq_get?]
  rfl

lemma getLastD_mem {l : List Time} (h : l ≠ []) : l.getLast?.getD 0 ∈ l := by
  induction l with
  | nil => exact absurd rfl h
  | cons a rest ih =>
    cases rest with
    | nil => simp
    | cons b r2 =>
      rw [List.getLast?_cons_cons]
      exact List.mem_cons_of_mem a (ih (by simp))

lemma mem_le_getLastD {l : List Time} (hp : l.Pairwise (· < ·)) :
    ∀ x ∈ l, x ≤ l.getLast?.getD 0 := by
  induction l with
  | nil => intro x hx; cases hx
  | cons a rest ih =>
    intro x hx
    cases rest with
    | nil =>
      rw [List.mem_singleton] at hx
      simp [hx]
    | cons b r2 =>
      rw [List.getLast?_cons_cons]
      rcases List.mem_cons.mp hx with hx | hx
      · refine hx ▸ le_of_lt (List.rel_of_pairwise_cons hp ?_)
        exact getLastD_mem (by simp)
      · exact ih hp.of_cons x hx

/-- C3 (amended): any query outside the archived breakpoint range fails
rather than being clamped or extrapolated — but not uniformly with the
interpolation-range error.  A query below the first breakpoint wraps
`times[idx - 1]` around to the *last* breakpoint, so the interval check of
`_interp_evaluate` rejects it with the interpolation-range error; a query
above the last breakpoint makes `times[idx]` an out-of-bounds access and
raises an index error instead. -/
theorem dense_output_fn_out_of_range {Y C : Type}
    (evalPoly : C → Time → Time → Time → Y) (times : List Time)
    (coeffs : List C) (t : Time) (hp : times.Pairwise (· < ·))
    (hlen : 2 ≤ times.length) (hc : coeffs ≠ []) :
    (t < times.head?.getD 0 →
      dense_output_fn evalPoly times coeffs t =
        Except.error DErr.outOfInterpolationRange) ∧
    (times.getLast?.getD 0 < t →
      dense_output_fn evalPoly times coeffs t = Except.error DErr.indexError) := by
  obtain ⟨a, times1, rfl⟩ : ∃ a ts, times = a :: ts := by
    cases times with
    | nil => simp at hlen
    | cons a ts => exact ⟨a, ts, rfl⟩
  obtain ⟨b, rest, rfl⟩ : ∃ b rest, times1 = b :: rest := by
    cases times1 with
    | nil => simp at hlen
    | cons b rest => exact ⟨b, rest, rfl⟩
  have hvne : (a :: b :: rest) ≠ [] := by simp
  constructor
  · intro hbelow
    have hb : t < a := hbelow
    have hidx : searchsorted_right (a :: b :: rest) t = 0 := by
      unfold searchsorted_right
      rw [List.findIdx_cons]
      simp [hb]
    have hm1 : ((0 : Nat) : Int) - 1 = -1 := by decide
    have h0 : tindex (a :: b :: rest) (((0 : Nat) : Int) - 1) =
        some ((a :: b :: rest).getLast hvne) := by
      rw [hm1, tindex_neg_one _ hvne, List.getLast?_eq_getLast_of_ne_nil hvne]
    have h1 : tindex (a :: b :: rest) ((0 : Nat) : Int) = some a := by
      rw [tindex_ofNat _ 0 (by simp)]
      rfl
    have h2 : tindex coeffs (((0 : Nat) : Int) - 1) = some (coeffs.getLast hc) := by
      rw [hm1, tindex_neg_one coeffs hc, List.getLast?_eq_getLast_of_ne_nil hc]
    have hage : a ≤ (a :: b :: rest).getLast hvne := by
      rcases List.mem_cons.mp (List.getLast_mem hvne) with h | h
      · exact le_of_eq h.symm
      · exact le_of_lt (List.rel_of_pairwise_cons hp h)
    unfold dense_output_fn
    rw [hidx]
    simp only [h0, h1, h2]
    unfold interp_evaluate
    rw [if_neg (fun hcond =>
      absurd hcond.1 (not_le.mpr (lt_of_lt_of_le hb hage)))]
  · intro habove
    have hfalse : ∀ x ∈ a :: b :: rest, (fun x => decide (t < x)) x = false := by
      intro x hx
      simp only [decide_eq_false_iff_not, not_lt]
      exact le_of_lt (lt_of_le_of_lt (mem_le_getLastD hp x hx) habove)
    have hidx : searchsorted_right (a :: b :: rest) t = (a :: b :: rest).length := by
      unfold searchsorted_right
      exact List.findIdx_eq_length_of_false hfalse
    have hge : 1 ≤ (a :: b :: rest).length := by simp
    have hcast : (((a :: b :: rest).length : Int)) - 1 =
        (((a :: b :: rest).length - 1 : Nat) : Int) := by omega
    have hsub : (a :: b :: rest).length - 1 < (a :: b :: rest).length :=
      Nat.sub_lt (lt_of_lt_of_le one_pos hge) one_pos
    have h0 : tindex (a :: b :: rest) (((a :: b :: rest).length : Int) - 1) =
        some ((a :: b :: rest).get ⟨(a :: b :: rest).length - 1, hsub⟩) := by
      rw [hcast, tindex_ofNat _ _ hsub]
    have h1 : tindex (a :: b :: rest) (((a :: b :: rest).length : Nat) : Int) = none :=
      tindex_ofNat_none _ _ le_rfl
    unfold dense_output_fn
    rw [hidx]
    simp only [h0, h1]

/-- The concrete interpolation-coefficient evaluation used for witnesses:
the payload itself is returned. -/
def evC : ℚ → Time → Time → Time → ℚ := fun c _ _ _ => c

/-- Counterexample to C3 as stated: on the archive with breakpoints
`[0, 1]`, the above-range query `t = 2` fails with an index error (from
`times[idx]` with `idx = len(times)`), not with the interpolation-range
error the claim promises for every out-of-range query. -/
theorem dense_output_fn_above_range_is_index_error :
    dense_output_fn evC [0, 1] [(0 : ℚ)] 2 = Except.error DErr.indexError ∧
    Except.error (α := ℚ) DErr.indexError ≠
      Except.error DErr.outOfInterpolationRange :=
  ⟨by decide, by decide⟩

/-- Witness for C3 (amended) on the archive `[0, 1]`: the below-range
query `t = -1` gives the interpolation-range error and the above-range
query `t = 2` gives the index error. -/
theorem dense_output_fn_out_of_range_witness :
    dense_output_fn evC [0, 1] [(0 : ℚ)] (-1) =
      Except.error DErr.outOfInterpolationRange ∧
    dense_output_fn evC [0, 1] [(0 : ℚ)] 2 = Except.error DErr.indexError :=
  ⟨(dense_output_fn_out_of_range evC [0, 1] [(0 : ℚ)] (-1)
      (by decide) (by decide) (by decide)).1 (by decide),
   (dense_output_fn_out_of_range evC [0, 1] [(0 : ℚ)] 2
      (by decide) (by decide) (by decide)).2 (by decide)⟩

lemma findIdx_sorted_interval (t : Time) :
    ∀ (l : List Time) (j : Nat) (hj : j + 1 < l.length),
      l.Pairwise (· < ·) → l.get ⟨j, Nat.lt_of_succ_lt hj⟩ ≤ t →
      t < l.get ⟨j + 1, hj⟩ →
      l.findIdx (fun x => decide (t < x)) = j + 1 := by
  intro l
  induction l with
  | nil =>
    intro j hj
    simp at hj
  | cons a rest ih =>
    intro j hj hp h1 h2
    cases j with
    | zero =>
      have ha : a ≤ t := h1
      rw [List.findIdx_cons, decide_eq_false (not_lt.mpr ha)]
      simp only [cond_false]
      cases rest with
      | nil => simp at hj
      | cons b r2 =>
        have hb : t < b := h2
        rw [List.findIdx_cons, decide_eq_true hb]
        rfl
    | succ k =>
      have hj1 : k + 1 < rest.length := by simpa using hj
      have h1r : rest.get ⟨k, Nat.lt_of_succ_lt hj1⟩ ≤ t := h1
      have h2r : t < rest.get ⟨k + 1, hj1⟩ := h2
      have ha : a ≤ t :=
        le_trans
          (le_of_lt (List.rel_of_pairwise_cons hp
            (List.get_mem rest k (Nat.lt_of_succ_lt hj1)))) h1r
      rw [List.findIdx_cons, decide_eq_false (not_lt.mpr ha)]
      simp only [cond_false]
      rw [ih k hj1 hp.of_cons h1r h2r]

/-- C5 (amended): for every query time owned by an archived step interval
other than at the very last breakpoint — i.e. `times[j] <= t < times[j+1]`
— `dense_output_fn` finds the owning interval by the ordered
`searchsorted` lookup and delegates to `interp_evaluate` (the same
evaluation routine the forward pass uses for its output rows), passing
that interval's stored endpoints and coefficients.  A query at exactly the
final breakpoint instead raises an index error (see the counterexample
theorem). -/
theorem dense_output_fn_delegates {Y C : Type}
    (evalPoly : C → Time → Time → Time → Y) (times : List Time)
    (coeffs : List C) (t : Time) (j : Nat) (hj : j + 1 < times.length)
    (hcj : j < coeffs.length) (hp : times.Pairwise (· < ·))
    (h1 : times.get ⟨j, Nat.lt_of_succ_lt hj⟩ ≤ t)
    (h2 : t < times.get ⟨j + 1, hj⟩) :
    dense_output_fn evalPoly times coeffs t =
      interp_evaluate evalPoly (coeffs.get ⟨j, hcj⟩)
        (times.get ⟨j, Nat.lt_of_succ_lt hj⟩) (times.get ⟨j + 1, hj⟩) t := by
  have hidx : searchsorted_right times t = j + 1 :=
    findIdx_sorted_interval t times j hj hp h1 h2
  have hcast : (((j + 1 : Nat) : Int)) - 1 = ((j : Nat) : Int) := by
    push_cast
    ring
  have h0 : tindex times (((j + 1 : Nat) : Int) - 1) =
      some (times.get ⟨j, Nat.lt_of_succ_lt hj⟩) := by
    rw [hcast, tindex_ofNat times j (Nat.lt_of_succ_lt hj)]
  have ht1 : tindex times ((j + 1 : Nat) : Int) =
      some (times.get ⟨j + 1, hj⟩) := tindex_ofNat times (j + 1) hj
  have hco : tindex coeffs (((j + 1 : Nat) : Int) - 1) =
      some (coeffs.get ⟨j, hcj⟩) := by
    rw [hcast, tindex_ofNat coeffs j hcj]
  unfold dense_output_fn
  rw [hidx]
  simp only [h0, ht1, hco]

/-- Counterexample to C5 as stated: a query at exactly the last archived
breakpoint time (`t = 1` on breakpoints `[0, 1]`) is owned by the final
step interval `[0, 1]` — delegating evaluation there succeeds — yet
`dense_output_fn` raises an index error instead of delegating, because
`searchsorted(..., side="right")` returns `len(times)`. -/
theorem dense_output_fn_last_breakpoint_fails :
    dense_output_fn evC [0, 1] [(5 : ℚ)] 1 = Except.error DErr.indexError ∧
    interp_evaluate evC (5 : ℚ) 0 1 1 = Except.ok 5 :=
  ⟨by decide, by decide⟩

/-- Witness for C5 (amended) at the interior query `t = 1` on breakpoints
`[0, 1, 2]` with interval coefficients `[3, 4]`: the second interval owns
the query and its stored data is passed to the evaluation routine. -/
theorem dense_output_fn_delegates_witness :
    dense_output_fn evC [0, 1, 2] [(3 : ℚ), 4] 1 = interp_evaluate evC 4 1 2 1 :=
  dense_output_fn_delegates evC [0, 1, 2] [(3 : ℚ), 4] 1 1
    (by decide) (by decide) (by decide) (by decide) (by decide)

end ODEs
